import Mathlib

/-!
Verification of the safe_httpeex HTML-templating core: the SafeHtmlBuilder
trust-separating string accumulator, the five-character HTML escaper, the
minimal template parser producing an immutable Document tree, and the
renderer that serializes a Document back to HTML through the builder.

The library itself ships as generated code that the repository's example
scripts import; the definitions below are therefore modelled from the
specification of those components and exercised on the concrete inputs the
example scripts use.
-/

/-- Modelled from the spec: a source position attached optionally to nodes
(the library's `Position`; the spec leaves its fields implementation-defined,
so a line/column pair is used). -/
structure Position where
  line : Nat
  col : Nat
deriving Repr, DecidableEq

/-- Modelled from the spec: the `Node` sum type of the document model, with
`Text` and `Element` variants.  `Element` carries a trusted tag name, an
optional trusted class attribute and an ordered children sequence. -/
inductive Node where
  | text (content : String) (source_position : Option Position)
  | element (tag_name : String) (css_class : Option String) (children : List Node)
      (source_position : Option Position)
deriving Repr

/-- Modelled from the spec: the `Document` root container returned by parsing. -/
structure Document where
  children : List Node
  source_position : Option Position
deriving Repr

/-- Modelled from the spec: the per-character escaping table of
`SafeHtmlBuilder.append`: the five HTML-significant characters map to their
entities, every other character is unchanged. -/
def escapeChar (c : Char) : String :=
  if c = '&' then "&amp;"
  else if c = '<' then "&lt;"
  else if c = '>' then "&gt;"
  else if c = '"' then "&quot;"
  else if c = '\'' then "&#39;"
  else c.toString

/-- Single-pass escaping of a character list: each character is replaced by
its `escapeChar` image, left to right. -/
def escapeList : List Char → List Char
  | [] => []
  | c :: cs => (escapeChar c).data ++ escapeList cs

/-- Modelled from the spec: the escaping transformation applied by
`SafeHtmlBuilder.append` (a single pass over the content). -/
def escape (s : String) : String := ⟨escapeList s.data⟩

/-- Modelled from the spec: `SafeHtmlBuilder`, an append-only string
accumulator whose two write operations differ by trust level. -/
structure SafeHtmlBuilder where
  accumulated : String
deriving Repr

/-- A freshly constructed builder: empty buffer. -/
def SafeHtmlBuilder.new : SafeHtmlBuilder := ⟨""⟩

/-- Modelled from the spec: `append_safe` appends the fragment verbatim. -/
def SafeHtmlBuilder.append_safe (b : SafeHtmlBuilder) (fragment : String) : SafeHtmlBuilder :=
  ⟨b.accumulated ++ fragment⟩

/-- Modelled from the spec: `append` appends the content after escaping the
five characters. -/
def SafeHtmlBuilder.append (b : SafeHtmlBuilder) (content : String) : SafeHtmlBuilder :=
  ⟨b.accumulated ++ escape content⟩

mutual

/-- Modelled from the spec: the renderer's depth-first pre-order visit of one
node.  An Element emits its open tag (with optional class attribute) via
`append_safe`, recurses into the children in order, then emits the close tag
via `append_safe`; a Text node is always routed through the escaping
`append`. -/
def renderNode (b : SafeHtmlBuilder) : Node → SafeHtmlBuilder
  | .text content _ => b.append content
  | .element tag_name css_class children _ =>
      let b1 := b.append_safe ("<" ++ tag_name)
      let b2 := match css_class with
        | some v => b1.append_safe (" class=\"" ++ v ++ "\"")
        | none => b1
      let b3 := b2.append_safe ">"
      let b4 := renderChildren b3 children
      b4.append_safe ("</" ++ tag_name ++ ">")

/-- Renders a children sequence in order, threading the builder. -/
def renderChildren (b : SafeHtmlBuilder) : List Node → SafeHtmlBuilder
  | [] => b
  | n :: ns => renderChildren (renderNode b n) ns

end

/-- Modelled from the spec: `render_html`, the total rendering entry point:
walk the document through a fresh builder and read off `accumulated`. -/
def render_html (doc : Document) : String :=
  (renderChildren SafeHtmlBuilder.new doc.children).accumulated

/-- Modelled from the spec: the `ParseError` failure category — malformed tag
nesting (an unmatched close tag, or an element left open at end of input) or
an empty/invalid tag name; a malformed tag body is reported likewise. -/
inductive ParseError where
  | unmatchedCloseTag (tag_name : String)
  | invalidTagName
  | malformedTag
  | unclosedElement (tag_name : String)
deriving Repr, DecidableEq

/-- Tokens of the template grammar: a literal text run, an open tag with
optional class attribute, or a close tag. -/
inductive Token where
  | text (s : String)
  | openTag (tag_name : String) (css_class : Option String)
  | close (tag_name : String)
deriving Repr, DecidableEq

/-- A tag name starts with a letter. -/
def isNameStart (c : Char) : Bool := c.isAlpha

/-- Identifier characters allowed in tag names. -/
def isNameChar (c : Char) : Bool := c.isAlphanum || c = '-' || c = '_'

/-- Splits a character list into its longest identifier-character prefix and
the remainder. -/
def splitName : List Char → List Char × List Char
  | [] => ([], [])
  | c :: cs =>
      if isNameChar c then
        let p := splitName cs
        (c :: p.1, p.2)
      else ([], c :: cs)

/-- Splits a character list into its longest quote-free prefix and the
remainder (used for a class attribute value). -/
def splitQuoted : List Char → List Char × List Char
  | [] => ([], [])
  | c :: cs =>
      if c = '"' then ([], c :: cs)
      else
        let p := splitQuoted cs
        (c :: p.1, p.2)

/-- Prepends a literal character to a token stream, merging it into a leading
text run so that maximal character runs become single Text tokens. -/
def consText (c : Char) : List Token → List Token
  | .text s :: ts => .text ⟨c :: s.data⟩ :: ts
  | ts => .text c.toString :: ts

/-- After `<`, does a recognized tag open/close follow?  Yes when the next
character is `/` or a name-start letter; otherwise the `<` is literal text. -/
def isTagStart (cs : List Char) : Bool :=
  match cs with
  | c :: _ => c = '/' || isNameStart c
  | [] => false

/-- Modelled from the spec: lexing of a close tag `</name>` (the input starts
just after `</`).  An empty name is an invalid tag name; a tag that does not
terminate with `>` right after the name is malformed. -/
def lexClose (cs : List Char) : Except ParseError (Token × List Char) :=
  if (splitName cs).1 = [] then .error .invalidTagName
  else match (splitName cs).2 with
    | '>' :: r => .ok (.close ⟨(splitName cs).1⟩, r)
    | _ => .error .malformedTag

/-- Modelled from the spec: lexing of an open tag `<name>` or
`<name class="value">` (the input starts just after `<`). -/
def lexOpen (cs : List Char) : Except ParseError (Token × List Char) :=
  if (splitName cs).1 = [] then .error .invalidTagName
  else match (splitName cs).2 with
    | '>' :: r => .ok (.openTag ⟨(splitName cs).1⟩ none, r)
    | ' ' :: 'c' :: 'l' :: 'a' :: 's' :: 's' :: '=' :: '"' :: r =>
        match (splitQuoted r).2 with
        | '"' :: '>' :: r3 => .ok (.openTag ⟨(splitName cs).1⟩ (some ⟨(splitQuoted r).1⟩), r3)
        | _ => .error .malformedTag
    | _ => .error .malformedTag

/-- Lexes the tag that follows a `<` known to start a recognized tag. -/
def lexTag (cs : List Char) : Except ParseError (Token × List Char) :=
  match cs with
  | c :: rest => if c = '/' then lexClose rest else lexOpen (c :: rest)
  | [] => .error .invalidTagName

/-- Modelled from the spec: the tokenizer of the template grammar.  Each step
consumes at least one character, so the fuel argument merely bounds the
recursion; any fuel exceeding the input length gives the tokenizer's
semantics (see `tokenizeF_fuel`). -/
def tokenizeF : Nat → List Char → Except ParseError (List Token)
  | _, [] => .ok []
  | 0, _ :: _ => .error .malformedTag
  | f + 1, c :: cs =>
      if c = '<' then
        if isTagStart cs then
          match lexTag cs with
          | .ok (t, r) => (tokenizeF f r).map (fun ts => t :: ts)
          | .error e => .error e
        else (tokenizeF f cs).map (consText '<')
      else (tokenizeF f cs).map (consText c)

/-- The tokenizer at always-sufficient fuel. -/
def tokenize (cs : List Char) : Except ParseError (List Token) :=
  tokenizeF (cs.length + 1) cs

/-- Modelled from the spec: the stack-based tree builder.  The stack holds
the open elements (name, class, and the parent's already-built children in
reverse); a close token must match the innermost open element. -/
def buildNodes : List Token → List (String × Option String × List Node) → List Node →
    Except ParseError (List Node)
  | [], [], acc => .ok acc.reverse
  | [], (nm, _, _) :: _, _ => .error (.unclosedElement nm)
  | .text s :: ts, stack, acc => buildNodes ts stack (.text s none :: acc)
  | .openTag nm cls :: ts, stack, acc => buildNodes ts ((nm, cls, acc) :: stack) []
  | .close nm :: ts, stack, acc =>
      match stack with
      | [] => .error (.unmatchedCloseTag nm)
      | (m, cls, pacc) :: stack2 =>
          if nm = m then buildNodes ts stack2 (.element m cls acc.reverse none :: pacc)
          else .error (.unmatchedCloseTag nm)

/-- Modelled from the spec: `parse` converts a template source string into a
Document, failing with a `ParseError` on malformed tag nesting or names. -/
def parse (source : String) : Except ParseError Document :=
  (tokenize source.data).bind fun ts =>
    (buildNodes ts [] []).map fun ns => ⟨ns, none⟩

/-- Modelled from the spec: `parse_and_render`, the composition of the parser
and the renderer. -/
def parse_and_render (source : String) : Except ParseError String :=
  (parse source).map render_html

/-- Modelled from the spec: the spec's well-formed-nesting condition on the
lexed token stream, the only requirement beyond tag lexing for parsing to
succeed.  A names-only stack machine: a text run is skipped without
inspecting its content, an open tag pushes its name, a close tag must match
the innermost open name, and at end of input no element may remain open. -/
def wellNested : List Token → List String → Bool
  | [], [] => true
  | [], _ :: _ => false
  | .text _ :: ts, stack => wellNested ts stack
  | .openTag nm _ :: ts, stack => wellNested ts (nm :: stack)
  | .close nm :: ts, stack =>
      match stack with
      | [] => false
      | m :: stack2 => if nm = m then wellNested ts stack2 else false

/-- The five HTML-significant characters. -/
def isSpecialChar (c : Char) : Bool :=
  c = '&' || c = '<' || c = '>' || c = '"' || c = '\''

/-- Replacement of every occurrence of one character by a string, over a
character list (one full pass for a single target character). -/
def replaceCharList (target : Char) (rep : List Char) : List Char → List Char
  | [] => []
  | c :: cs => (if c = target then rep else [c]) ++ replaceCharList target rep cs

/-- Replacement of every occurrence of one character by a string. -/
def replaceChar (target : Char) (rep : String) (s : String) : String :=
  ⟨replaceCharList target rep.data s.data⟩

/-- The sequential formulation of escaping from the spec: replace `&` first,
then `<`, `>`, `"`, `'` in turn.  Equivalent to the single-pass `escape`
(see the theorem for C1), which is what rules out double-escaping of the
generated entity text. -/
def escapeSequential (s : String) : String :=
  replaceChar '\'' "&#39;"
    (replaceChar '"' "&quot;"
      (replaceChar '>' "&gt;"
        (replaceChar '<' "&lt;"
          (replaceChar '&' "&amp;" s))))

/-- The class-attribute fragment an element contributes to its open tag. -/
def classString : Option String → String
  | none => ""
  | some v => " class=\"" ++ v ++ "\""

mutual

/-- Compositional rendering specification of one node: the exact string the
renderer's pre-order traversal emits for it. -/
def nodeString : Node → String
  | .text content _ => escape content
  | .element tag_name css_class children _ =>
      "<" ++ tag_name ++ classString css_class ++ ">" ++ nodesString children
        ++ "</" ++ tag_name ++ ">"

/-- Compositional rendering specification of a children sequence, in order. -/
def nodesString : List Node → String
  | [] => ""
  | n :: ns => nodeString n ++ nodesString ns

end

/-- One write operation on a `SafeHtmlBuilder`: a trusted `append_safe` or an
untrusted (escaping) `append`. -/
inductive BuilderOp where
  | safeOp (fragment : String)
  | escOp (content : String)

/-- Performs one builder operation. -/
def applyOp (b : SafeHtmlBuilder) : BuilderOp → SafeHtmlBuilder
  | .safeOp s => b.append_safe s
  | .escOp s => b.append s

/-- Performs a sequence of builder operations in call order. -/
def applyOps (b : SafeHtmlBuilder) : List BuilderOp → SafeHtmlBuilder
  | [] => b
  | op :: ops => applyOps (applyOp b op) ops

/-- The string one builder operation contributes to the buffer. -/
def opString : BuilderOp → String
  | .safeOp s => s
  | .escOp s => escape s

/-- The concatenation, in call order, of the contributions of a sequence of
builder operations. -/
def opsString : List BuilderOp → String
  | [] => ""
  | op :: ops => opString op ++ opsString ops

/-- Is this token a literal text run? -/
def isTextTok : Token → Bool
  | .text _ => true
  | _ => false

/-- A token stream that does not begin with a text run (so prepending a
character starts a fresh run rather than merging). -/
def headNotText : List Token → Prop
  | .text _ :: _ => False
  | _ => True

/-- A character-list remainder that cannot extend an identifier run. -/
def headNotName : List Char → Prop
  | c :: _ => isNameChar c = false
  | [] => True

/-- Well-formed template fragments: the subset of the grammar exercised by
the passthrough property — nested elements with optional class attributes
and plain text runs. -/
inductive TNode where
  | text (content : String)
  | elem (tag_name : String) (css_class : Option String) (children : List TNode)

/-- A valid tag name: nonempty, letter first, identifier characters only. -/
def goodName (s : String) : Bool :=
  match s.data with
  | [] => false
  | c :: _ => isNameStart c && s.data.all isNameChar

/-- A valid class attribute value: no double quote inside. -/
def goodClass : Option String → Bool
  | none => true
  | some v => v.data.all (fun c => !(c = '"'))

/-- Is this template fragment a text run? -/
def isTextT : TNode → Bool
  | .text _ => true
  | .elem _ _ _ => false

/-- No two adjacent text runs (adjacent runs would merge when reparsed). -/
def noAdjText : List TNode → Bool
  | [] => true
  | [_] => true
  | t :: t2 :: ts => !(isTextT t && isTextT t2) && noAdjText (t2 :: ts)

mutual

/-- A well-formed template fragment: text runs are nonempty and free of the
five special characters; elements have valid names, valid class values, and
well-formed children without adjacent text runs. -/
def goodT : TNode → Bool
  | .text s => !s.isEmpty && s.data.all (fun c => !isSpecialChar c)
  | .elem nm cls ch => goodName nm && goodClass cls && goodList ch && noAdjText ch

/-- All members of a children sequence are well-formed. -/
def goodList : List TNode → Bool
  | [] => true
  | t :: ts => goodT t && goodList ts

end

mutual

/-- The source text of a template fragment. -/
def printT : TNode → String
  | .text s => s
  | .elem nm cls ch =>
      "<" ++ nm ++ classString cls ++ ">" ++ printList ch ++ "</" ++ nm ++ ">"

/-- The source text of a sequence of template fragments. -/
def printList : List TNode → String
  | [] => ""
  | t :: ts => printT t ++ printList ts

end

mutual

/-- The document node a template fragment parses to. -/
def astT : TNode → Node
  | .text s => .text s none
  | .elem nm cls ch => .element nm cls (astList ch) none

/-- The document nodes a sequence of template fragments parses to. -/
def astList : List TNode → List Node
  | [] => []
  | t :: ts => astT t :: astList ts

end

mutual

/-- The token stream a template fragment lexes to. -/
def toksT : TNode → List Token
  | .text s => [.text s]
  | .elem nm cls ch => .openTag nm cls :: (toksList ch ++ [.close nm])

/-- The token stream a sequence of template fragments lexes to. -/
def toksList : List TNode → List Token
  | [] => []
  | t :: ts => toksT t ++ toksList ts

end

theorem escapeList_append (l m : List Char) :
    escapeList (l ++ m) = escapeList l ++ escapeList m := by
  induction l with
  | nil => rfl
  | cons c l ih => simp [escapeList, ih]

theorem replaceCharList_append (t : Char) (rep l m : List Char) :
    replaceCharList t rep (l ++ m) = replaceCharList t rep l ++ replaceCharList t rep m := by
  induction l with
  | nil => rfl
  | cons c l ih => simp [replaceCharList, ih]

theorem pipelineChar (c : Char) :
    replaceCharList '\'' "&#39;".data
      (replaceCharList '"' "&quot;".data
        (replaceCharList '>' "&gt;".data
          (replaceCharList '<' "&lt;".data
            (replaceCharList '&' "&amp;".data [c])))) = (escapeChar c).data := by
  by_cases h1 : c = '&'
  · subst h1; decide
  by_cases h2 : c = '<'
  · subst h2; decide
  by_cases h3 : c = '>'
  · subst h3; decide
  by_cases h4 : c = '"'
  · subst h4; decide
  by_cases h5 : c = '\''
  · subst h5; decide
  have he : escapeChar c = c.toString := by
    unfold escapeChar
    rw [if_neg h1, if_neg h2, if_neg h3, if_neg h4, if_neg h5]
  rw [he]
  show _ = [c]
  simp [replaceCharList, h1, h2, h3, h4, h5]

theorem escapeSequential_list (l : List Char) :
    replaceCharList '\'' "&#39;".data
      (replaceCharList '"' "&quot;".data
        (replaceCharList '>' "&gt;".data
          (replaceCharList '<' "&lt;".data
            (replaceCharList '&' "&amp;".data l)))) = escapeList l := by
  induction l with
  | nil => rfl
  | cons c l ih =>
      have h : c :: l = [c] ++ l := rfl
      rw [h]
      simp only [replaceCharList_append]
      rw [pipelineChar, ih]
      simp [escapeList]

theorem escape_eq_escapeSequential (s : String) : escape s = escapeSequential s :=
  (congrArg String.mk (escapeSequential_list s.data)).symm

theorem lt_not_mem_escapeChar (c : Char) : '<' ∉ (escapeChar c).data := by
  unfold escapeChar
  split_ifs with h1 h2 h3 h4 h5
  · decide
  · decide
  · decide
  · decide
  · decide
  · show '<' ∉ [c]
    simp only [List.mem_singleton]
    exact fun h => h2 h.symm

theorem lt_not_mem_escapeList (l : List Char) : '<' ∉ escapeList l := by
  induction l with
  | nil => simp [escapeList]
  | cons c l ih =>
      simp only [escapeList, List.mem_append, not_or]
      exact ⟨lt_not_mem_escapeChar c, ih⟩

theorem one_le_length_escapeChar (c : Char) : 1 ≤ (escapeChar c).data.length := by
  unfold escapeChar
  split_ifs
  · decide
  · decide
  · decide
  · decide
  · decide
  · exact Nat.le.refl

theorem four_le_of_special (c : Char) (h : isSpecialChar c = true) :
    4 ≤ (escapeChar c).data.length := by
  unfold isSpecialChar at h
  simp only [Bool.or_eq_true, decide_eq_true_eq] at h
  rcases h with (((h | h) | h) | h) | h <;> subst h <;> decide

theorem length_le_length_escapeList (l : List Char) : l.length ≤ (escapeList l).length := by
  induction l with
  | nil => simp [escapeList]
  | cons c l ih =>
      simp only [escapeList, List.length_append, List.length_cons]
      have := one_le_length_escapeChar c
      omega

theorem length_lt_of_special (l : List Char) (h : ∃ c ∈ l, isSpecialChar c = true) :
    l.length < (escapeList l).length := by
  induction l with
  | nil => simp at h
  | cons c l ih =>
      simp only [escapeList, List.length_append, List.length_cons]
      rcases h with ⟨d, hd, hspec⟩
      rcases List.mem_cons.mp hd with rfl | hdl
      · have h4 := four_le_of_special d hspec
        have hl := length_le_length_escapeList l
        omega
      · have hlt := ih ⟨d, hdl, hspec⟩
        have h1 := one_le_length_escapeChar c
        omega

theorem escape_ne_of_special (s : String) (h : ∃ c ∈ s.data, isSpecialChar c = true) :
    escape s ≠ s := by
  intro he
  have hd : escapeList s.data = s.data := congrArg String.data he
  have hlen := length_lt_of_special s.data h
  rw [hd] at hlen
  exact lt_irrefl _ hlen

theorem append_changes_of_special (b : SafeHtmlBuilder) (s : String)
    (h : ∃ c ∈ s.data, isSpecialChar c = true) :
    (b.append s).accumulated ≠ b.accumulated ++ s := by
  intro he
  have h1 : b.accumulated ++ escape s = b.accumulated ++ s := he
  have h2 : b.accumulated.data ++ (escape s).data = b.accumulated.data ++ s.data := by
    have := congrArg String.data h1
    rwa [String.data_append, String.data_append] at this
  have h3 : (escape s).data = s.data := List.append_cancel_left h2
  exact escape_ne_of_special s h (congrArg String.mk h3)

example (s : String) : "" ++ s = s := rfl

theorem render_single_text (content : String) :
    render_html ⟨[.text content none], none⟩ = escape content := rfl

mutual

theorem renderNode_spec (b : SafeHtmlBuilder) (n : Node) :
    (renderNode b n).accumulated = b.accumulated ++ nodeString n := by
  match n with
  | .text content pos => rfl
  | .element nm cls ch pos =>
      cases cls with
      | none =>
          show ((renderChildren ((b.append_safe ("<" ++ nm)).append_safe ">") ch).append_safe
              ("</" ++ nm ++ ">")).accumulated = _
          show (renderChildren ((b.append_safe ("<" ++ nm)).append_safe ">") ch).accumulated
              ++ ("</" ++ nm ++ ">") = _
          rw [renderChildren_spec]
          show b.accumulated ++ ("<" ++ nm) ++ ">" ++ nodesString ch ++ ("</" ++ nm ++ ">") = _
          simp [nodeString, classString, String.append_assoc, String.empty_append]
      | some v =>
          show ((renderChildren (((b.append_safe ("<" ++ nm)).append_safe
              (" class=\"" ++ v ++ "\"")).append_safe ">") ch).append_safe
              ("</" ++ nm ++ ">")).accumulated = _
          show (renderChildren (((b.append_safe ("<" ++ nm)).append_safe
              (" class=\"" ++ v ++ "\"")).append_safe ">") ch).accumulated
              ++ ("</" ++ nm ++ ">") = _
          rw [renderChildren_spec]
          show b.accumulated ++ ("<" ++ nm) ++ (" class=\"" ++ v ++ "\"") ++ ">"
              ++ nodesString ch ++ ("</" ++ nm ++ ">") = _
          simp [nodeString, classString, String.append_assoc]

theorem renderChildren_spec (b : SafeHtmlBuilder) (ns : List Node) :
    (renderChildren b ns).accumulated = b.accumulated ++ nodesString ns := by
  match ns with
  | [] =>
      show b.accumulated = b.accumulated ++ ""
      rw [String.append_empty]
  | n :: ns =>
      show (renderChildren (renderNode b n) ns).accumulated = _
      rw [renderChildren_spec, renderNode_spec]
      show b.accumulated ++ nodeString n ++ nodesString ns = _
      simp [nodesString, String.append_assoc]

end

theorem render_html_eq_nodesString (doc : Document) :
    render_html doc = nodesString doc.children := by
  show (renderChildren SafeHtmlBuilder.new doc.children).accumulated = _
  rw [renderChildren_spec]
  exact String.empty_append _

theorem applyOps_accumulated (ops : List BuilderOp) (b : SafeHtmlBuilder) :
    (applyOps b ops).accumulated = b.accumulated ++ opsString ops := by
  induction ops generalizing b with
  | nil => exact (String.append_empty _).symm
  | cons op ops ih =>
      show (applyOps (applyOp b op) ops).accumulated = _
      rw [ih]
      cases op with
      | safeOp s => simp [applyOp, SafeHtmlBuilder.append_safe, opsString, opString,
          String.append_assoc]
      | escOp s => simp [applyOp, SafeHtmlBuilder.append, opsString, opString,
          String.append_assoc]
/-- C1: for every string content, `SafeHtmlBuilder.append` extends the
accumulated buffer with the content in single-pass escaped form — every
occurrence of the five characters is replaced by its entity, all other
characters are unchanged — and this single pass coincides with the
ampersand-first sequential substitution, so generated entity text is never
double-escaped. -/
theorem append_is_single_pass_escape (b : SafeHtmlBuilder) (content : String) :
    (b.append content).accumulated = b.accumulated ++ escape content
      ∧ (escape content).data = escapeList content.data
      ∧ escape content = escapeSequential content :=
  ⟨rfl, rfl, escape_eq_escapeSequential content⟩

/-- C2: the output of `render_html` on a Document whose child is any text
content — in particular a `<script>...</script>` or `<img ...>` payload —
contains no `<` character at all once escaped, hence no unescaped `<script`
or `<img` substring of the raw payload. -/
theorem rendered_text_contains_no_raw_payload (content : String) :
    '<' ∉ (escape content).data
      ∧ ¬ List.IsInfix ("<script".data) (render_html ⟨[.text content none], none⟩).data
      ∧ ¬ List.IsInfix ("<img".data) (render_html ⟨[.text content none], none⟩).data := by
  have hout : (render_html ⟨[.text content none], none⟩).data = escapeList content.data := rfl
  refine ⟨lt_not_mem_escapeList content.data, fun hinf => ?_, fun hinf => ?_⟩
  · have hmem : '<' ∈ (render_html ⟨[.text content none], none⟩).data :=
      hinf.sublist.subset (by decide : '<' ∈ "<script".data)
    rw [hout] at hmem
    exact lt_not_mem_escapeList content.data hmem
  · have hmem : '<' ∈ (render_html ⟨[.text content none], none⟩).data :=
      hinf.sublist.subset (by decide : '<' ∈ "<img".data)
    rw [hout] at hmem
    exact lt_not_mem_escapeList content.data hmem

/-- C3: `append_safe` appends its fragment verbatim, with no transformation
of any character; by contrast `append` always alters an argument that
contains at least one of the five special characters. -/
theorem append_safe_verbatim (b : SafeHtmlBuilder) (fragment s : String)
    (h : ∃ c ∈ s.data, isSpecialChar c = true) :
    (b.append_safe fragment).accumulated = b.accumulated ++ fragment
      ∧ escape s ≠ s
      ∧ (b.append s).accumulated ≠ b.accumulated ++ s :=
  ⟨rfl, escape_ne_of_special s h, append_changes_of_special b s h⟩

/-- Witness for C3 at a concrete builder, fragment and special-containing
string. -/
theorem append_safe_verbatim_witness :
    (∃ c ∈ ("a<b" : String).data, isSpecialChar c = true)
      ∧ ((⟨"pre"⟩ : SafeHtmlBuilder).append_safe "<div>").accumulated = "pre" ++ "<div>"
      ∧ escape "a<b" ≠ "a<b"
      ∧ ((⟨"pre"⟩ : SafeHtmlBuilder).append "a<b").accumulated ≠ "pre" ++ "a<b" :=
  ⟨by decide, append_safe_verbatim ⟨"pre"⟩ "<div>" "a<b" (by decide)⟩

/-- C4: rendering a Document whose sole child is a Text node holding one of
the five special characters yields exactly the designated entity string. -/
theorem render_escapes_each_special_char :
    render_html ⟨[.text "&" none], none⟩ = "&amp;"
      ∧ render_html ⟨[.text "<" none], none⟩ = "&lt;"
      ∧ render_html ⟨[.text ">" none], none⟩ = "&gt;"
      ∧ render_html ⟨[.text "\"" none], none⟩ = "&quot;"
      ∧ render_html ⟨[.text ⟨['\'']⟩ none], none⟩ = "&#39;" :=
  ⟨rfl, rfl, rfl, rfl, rfl⟩

/-- C6: `render_html` is total — on every Document, including hand-built
ones with arbitrary Text content, it returns the compositional rendering of
the children, and a lone Text child always renders to its escaped content. -/
theorem render_html_total_on_any_document :
    (∀ doc : Document, render_html doc = nodesString doc.children)
      ∧ (∀ (content : String) (pos : Option Position),
          render_html ⟨[.text content pos], none⟩ = escape content) :=
  ⟨render_html_eq_nodesString, fun _ _ => rfl⟩

/-- C8: the renderer is a depth-first pre-order traversal visiting each node
once: its builder-threading equals appending the node's compositional string,
where an Element contributes its open tag (with optional class fragment),
then its children's strings in order, then its close tag, and a Text node
contributes exactly its escaped content. -/
theorem renderer_preorder_traversal_spec :
    (∀ (b : SafeHtmlBuilder) (n : Node),
        (renderNode b n).accumulated = b.accumulated ++ nodeString n)
      ∧ (∀ (b : SafeHtmlBuilder) (ns : List Node),
          (renderChildren b ns).accumulated = b.accumulated ++ nodesString ns)
      ∧ (∀ (nm : String) (cls : Option String) (ch : List Node) (pos : Option Position),
          nodeString (.element nm cls ch pos)
            = "<" ++ nm ++ classString cls ++ ">" ++ nodesString ch ++ "</" ++ nm ++ ">")
      ∧ (∀ (content : String) (pos : Option Position),
          nodeString (.text content pos) = escape content) :=
  ⟨renderNode_spec, renderChildren_spec, fun _ _ _ _ => rfl, fun _ _ => rfl⟩

/-- C10: a fresh `SafeHtmlBuilder` is empty, and after any interleaved
sequence of operations the buffer is exactly the concatenation, in call
order, of the verbatim `append_safe` arguments and the escaped `append`
arguments; each operation only ever extends the buffer. -/
theorem builder_accumulates_in_call_order :
    SafeHtmlBuilder.new.accumulated = ""
      ∧ (∀ ops : List BuilderOp,
          (applyOps SafeHtmlBuilder.new ops).accumulated = opsString ops)
      ∧ (∀ (b : SafeHtmlBuilder) (op : BuilderOp),
          ∃ t, (applyOp b op).accumulated = b.accumulated ++ t)
      ∧ (∀ s, opString (.safeOp s) = s) ∧ (∀ s, opString (.escOp s) = escape s) := by
  refine ⟨rfl, fun ops => ?_, fun b op => ?_, fun _ => rfl, fun _ => rfl⟩
  · rw [applyOps_accumulated]
    exact String.empty_append _
  · cases op with
    | safeOp s => exact ⟨s, rfl⟩
    | escOp s => exact ⟨escape s, rfl⟩

theorem splitName_snd_length (cs : List Char) : (splitName cs).2.length ≤ cs.length := by
  induction cs with
  | nil => simp [splitName]
  | cons c cs ih =>
      simp only [splitName]
      split
      · exact Nat.le_succ_of_le ih
      · exact Nat.le_refl _

theorem splitQuoted_snd_length (cs : List Char) : (splitQuoted cs).2.length ≤ cs.length := by
  induction cs with
  | nil => simp [splitQuoted]
  | cons c cs ih =>
      simp only [splitQuoted]
      split
      · exact Nat.le_refl _
      · exact Nat.le_succ_of_le ih

theorem lexClose_length (cs : List Char) (t : Token) (r : List Char)
    (h : lexClose cs = .ok (t, r)) : r.length ≤ cs.length := by
  unfold lexClose at h
  split at h
  · simp at h
  · split at h
    · rename_i r2 heq
      simp only [Except.ok.injEq, Prod.mk.injEq] at h
      obtain ⟨-, hr⟩ := h
      subst hr
      have hs := splitName_snd_length cs
      rw [heq] at hs
      simp only [List.length_cons] at hs
      omega
    · simp at h

theorem lexOpen_length (cs : List Char) (t : Token) (r : List Char)
    (h : lexOpen cs = .ok (t, r)) : r.length ≤ cs.length := by
  unfold lexOpen at h
  split at h
  · simp at h
  · split at h
    · rename_i r2 heq
      simp only [Except.ok.injEq, Prod.mk.injEq] at h
      obtain ⟨-, hr⟩ := h
      subst hr
      have hs := splitName_snd_length cs
      rw [heq] at hs
      simp only [List.length_cons] at hs
      omega
    · rename_i r0 heq
      split at h
      · rename_i r3 heq2
        simp only [Except.ok.injEq, Prod.mk.injEq] at h
        obtain ⟨-, hr⟩ := h
        subst hr
        have hs := splitName_snd_length cs
        rw [heq] at hs
        have hq := splitQuoted_snd_length r0
        rw [heq2] at hq
        simp only [List.length_cons] at hs hq
        omega
      · simp at h
    · simp at h

theorem lexTag_length (cs : List Char) (t : Token) (r : List Char)
    (h : lexTag cs = .ok (t, r)) : r.length ≤ cs.length := by
  unfold lexTag at h
  split at h
  · split at h
    · rename_i c rest hslash
      have hb := lexClose_length rest t r h
      simp only [List.length_cons]
      omega
    · rename_i c rest hslash
      exact lexOpen_length (c :: rest) t r h
  · simp at h
theorem tokenizeF_nil (f : Nat) : tokenizeF f [] = .ok [] := by
  cases f <;> rfl

theorem tokenizeF_succ (f : Nat) (c : Char) (cs : List Char) :
    tokenizeF (f + 1) (c :: cs) =
      if c = '<' then
        if isTagStart cs then
          match lexTag cs with
          | .ok (t, r) => (tokenizeF f r).map (fun ts => t :: ts)
          | .error e => .error e
        else (tokenizeF f cs).map (consText '<')
      else (tokenizeF f cs).map (consText c) := rfl

theorem tokenizeF_cons_ne (f : Nat) (c : Char) (cs : List Char) (hc : ¬(c = '<')) :
    tokenizeF (f + 1) (c :: cs) = (tokenizeF f cs).map (consText c) := by
  rw [tokenizeF_succ, if_neg hc]

theorem tokenizeF_tag_ok (f : Nat) (cs : List Char) (t : Token) (r : List Char)
    (hstart : isTagStart cs = true) (hlex : lexTag cs = .ok (t, r)) :
    tokenizeF (f + 1) ('<' :: cs) = (tokenizeF f r).map (fun ts => t :: ts) := by
  rw [tokenizeF_succ, if_pos rfl, if_pos hstart, hlex]

theorem tokenizeF_tag_err (f : Nat) (cs : List Char) (e : ParseError)
    (hstart : isTagStart cs = true) (hlex : lexTag cs = .error e) :
    tokenizeF (f + 1) ('<' :: cs) = .error e := by
  rw [tokenizeF_succ, if_pos rfl, if_pos hstart, hlex]

theorem tokenizeF_lt_literal (f : Nat) (cs : List Char) (hstart : isTagStart cs = false) :
    tokenizeF (f + 1) ('<' :: cs) = (tokenizeF f cs).map (consText '<') := by
  rw [tokenizeF_succ, if_pos rfl, if_neg (by simp [hstart])]

theorem tokenizeF_fuel (f : Nat) (cs : List Char) (hf : cs.length < f) :
    tokenizeF f cs = tokenize cs := by
  induction f using Nat.strong_induction_on generalizing cs with
  | _ f ih =>
    cases cs with
    | nil => rw [tokenizeF_nil]; rfl
    | cons c cs =>
      obtain ⟨f, rfl⟩ : ∃ g, f = g + 1 := ⟨f - 1, by omega⟩
      simp only [List.length_cons] at hf
      by_cases hc : c = '<'
      · subst hc
        cases hts : isTagStart cs with
        | false =>
            rw [tokenizeF_lt_literal f cs hts]
            have h2 : tokenize ('<' :: cs) = (tokenizeF (cs.length + 1) cs).map (consText '<') :=
              tokenizeF_lt_literal (cs.length + 1) cs hts
            rw [h2, ih f (by omega) cs (by omega)]
            rfl
        | true =>
            cases hlex : lexTag cs with
            | error e =>
                rw [tokenizeF_tag_err f cs e hts hlex]
                have h2 : tokenize ('<' :: cs) = .error e :=
                  tokenizeF_tag_err (cs.length + 1) cs e hts hlex
                rw [h2]
            | ok tr =>
                obtain ⟨t, r⟩ := tr
                have hr := lexTag_length cs t r hlex
                rw [tokenizeF_tag_ok f cs t r hts hlex]
                have h2 : tokenize ('<' :: cs)
                    = (tokenizeF (cs.length + 1) r).map (fun ts => t :: ts) :=
                  tokenizeF_tag_ok (cs.length + 1) cs t r hts hlex
                rw [h2, ih f (by omega) r (by omega), ih (cs.length + 1) (by omega) r (by omega)]
      · rw [tokenizeF_cons_ne f c cs hc]
        have h2 : tokenize (c :: cs) = (tokenizeF (cs.length + 1) cs).map (consText c) :=
          tokenizeF_cons_ne (cs.length + 1) c cs hc
        rw [h2, ih f (by omega) cs (by omega)]
        rfl

theorem tokenize_cons_ne (c : Char) (cs : List Char) (hc : ¬(c = '<')) :
    tokenize (c :: cs) = (tokenize cs).map (consText c) :=
  tokenizeF_cons_ne (cs.length + 1) c cs hc

theorem tokenize_tag_ok (cs : List Char) (t : Token) (r : List Char)
    (hstart : isTagStart cs = true) (hlex : lexTag cs = .ok (t, r)) :
    tokenize ('<' :: cs) = (tokenize r).map (fun ts => t :: ts) := by
  have h1 : tokenize ('<' :: cs) = (tokenizeF (cs.length + 1) r).map (fun ts => t :: ts) :=
    tokenizeF_tag_ok (cs.length + 1) cs t r hstart hlex
  have hr := lexTag_length cs t r hlex
  rw [h1, tokenizeF_fuel (cs.length + 1) r (by omega)]
theorem consText_all (c : Char) (ts : List Token) (h : ts.all isTextTok = true) :
    (consText c ts).all isTextTok = true := by
  cases ts with
  | nil => rfl
  | cons t ts =>
      cases t with
      | text s => simpa [consText, isTextTok] using h
      | openTag nm cls => simp [isTextTok] at h
      | close nm => simp [isTextTok] at h

theorem tokenize_text_only (cs : List Char) (h : ∀ c ∈ cs, ¬(c = '<')) :
    ∃ ts, tokenize cs = .ok ts ∧ ts.all isTextTok = true := by
  induction cs with
  | nil => exact ⟨[], rfl, rfl⟩
  | cons c cs ih =>
      obtain ⟨ts, h1, h2⟩ := ih (fun d hd => h d (List.mem_cons_of_mem c hd))
      have hc := h c (List.mem_cons_self c cs)
      refine ⟨consText c ts, ?_, consText_all c ts h2⟩
      rw [tokenize_cons_ne c cs hc, h1]
      rfl

theorem buildNodes_text_only (ts : List Token) (h : ts.all isTextTok = true)
    (acc : List Node) : ∃ ns, buildNodes ts [] acc = .ok ns := by
  induction ts generalizing acc with
  | nil => exact ⟨acc.reverse, rfl⟩
  | cons t ts ih =>
      cases t with
      | text s => exact ih (by simpa [isTextTok] using h) (.text s none :: acc)
      | openTag nm cls => simp [isTextTok] at h
      | close nm => simp [isTextTok] at h

theorem data_mk (cs : List Char) : (⟨cs⟩ : String).data = cs := rfl

theorem tokenize_lt_literal (cs : List Char) (h : isTagStart cs = false) :
    tokenize ('<' :: cs) = (tokenize cs).map (consText '<') :=
  tokenizeF_lt_literal (cs.length + 1) cs h

theorem wellNested_consText (c : Char) (ts : List Token) (stack : List String) :
    wellNested (consText c ts) stack = wellNested ts stack := by
  cases ts with
  | nil => rfl
  | cons t ts2 =>
      cases t with
      | text s => rfl
      | openTag nm cls => rfl
      | close nm => rfl

theorem allText_wellNested (ts : List Token) (h : ts.all isTextTok = true) :
    wellNested ts [] = true := by
  induction ts with
  | nil => rfl
  | cons t ts ih =>
      cases t with
      | text s => exact ih (by simpa [isTextTok] using h)
      | openTag nm cls => simp [isTextTok] at h
      | close nm => simp [isTextTok] at h

theorem buildNodes_ok_iff (ts : List Token)
    (st : List (String × Option String × List Node)) (acc : List Node) :
    (∃ ns, buildNodes ts st acc = .ok ns)
      ↔ wellNested ts (st.map (fun f => f.1)) = true := by
  induction ts generalizing st acc with
  | nil =>
      cases st with
      | nil => simp [buildNodes, wellNested]
      | cons f st2 =>
          obtain ⟨nm, cls, pacc⟩ := f
          simp [buildNodes, wellNested]
  | cons t ts ih =>
      cases t with
      | text s => exact ih st (.text s none :: acc)
      | openTag nm cls => exact ih ((nm, cls, acc) :: st) []
      | close nm =>
          cases st with
          | nil => simp [buildNodes, wellNested]
          | cons f st2 =>
              obtain ⟨m, cls, pacc⟩ := f
              by_cases hnm : nm = m
              · subst hnm
                simpa [buildNodes, wellNested] using
                  ih st2 (.element nm cls acc.reverse none :: pacc)
              · simp [buildNodes, wellNested, hnm]

theorem parse_ok_iff (s : String) :
    (∃ d, parse s = .ok d)
      ↔ (∃ ts, tokenize s.data = .ok ts ∧ wellNested ts [] = true) := by
  constructor
  · rintro ⟨d, hd⟩
    unfold parse at hd
    cases htok : tokenize s.data with
    | error e =>
        rw [htok] at hd
        exact absurd hd (by simp [Except.bind])
    | ok ts =>
        rw [htok] at hd
        have hd2 : (buildNodes ts [] []).map
            (fun ns => Document.mk ns none) = .ok d := hd
        cases hb : buildNodes ts [] [] with
        | error e =>
            rw [hb] at hd2
            exact absurd hd2 (by simp [Except.map])
        | ok ns => exact ⟨ts, rfl, (buildNodes_ok_iff ts [] []).mp ⟨ns, hb⟩⟩
  · rintro ⟨ts, hts, hwn⟩
    obtain ⟨ns, hns⟩ := (buildNodes_ok_iff ts [] []).mpr hwn
    refine ⟨⟨ns, none⟩, ?_⟩
    unfold parse
    rw [hts]
    show (buildNodes ts [] []).map _ = _
    rw [hns]
    rfl

theorem map_consText_ok_iff (c : Char) (r : Except ParseError (List Token)) :
    (∃ ts, r.map (consText c) = .ok ts ∧ wellNested ts [] = true)
      ↔ (∃ ts, r = .ok ts ∧ wellNested ts [] = true) := by
  cases r with
  | error e => simp [Except.map]
  | ok ts0 => simp [Except.map, wellNested_consText]

/-- C5: for every input string, `parse` succeeds exactly when the source
lexes into a token stream (tag names nonempty and valid, tags properly
delimited) whose tag nesting is well formed — `wellNested`, a names-only
stack check that never inspects text content — and fails with a
`ParseError` exactly otherwise.  Plain text never causes failure: any byte
other than a tag-opening `<` is acceptance-neutral wherever it occurs, and
a `<` not followed by `/` or a letter is itself literal text, so text
between tags may contain any bytes.  The listed malformed inputs fail with
the corresponding nesting and name errors. -/
theorem parse_fails_only_on_malformed_tags (s : String) :
    ((∃ d, parse s = .ok d)
        ↔ (∃ ts, tokenize s.data = .ok ts ∧ wellNested ts [] = true))
      ∧ ((∃ e, parse s = .error e)
        ↔ ¬(∃ ts, tokenize s.data = .ok ts ∧ wellNested ts [] = true))
      ∧ (∀ (c : Char) (cs : List Char), ¬(c = '<') →
          ((∃ d, parse ⟨c :: cs⟩ = .ok d) ↔ (∃ d, parse ⟨cs⟩ = .ok d)))
      ∧ (∀ (c : Char) (cs : List Char), isTagStart (c :: cs) = false →
          ((∃ d, parse ⟨'<' :: c :: cs⟩ = .ok d) ↔ (∃ d, parse ⟨c :: cs⟩ = .ok d)))
      ∧ (∀ cs : List Char, (∀ c ∈ cs, ¬(c = '<')) → ∃ d, parse ⟨cs⟩ = .ok d)
      ∧ parse "</div>" = .error (.unmatchedCloseTag "div")
      ∧ parse "</>" = .error .invalidTagName
      ∧ parse "<p>x" = .error (.unclosedElement "p")
      ∧ parse "<p>x</div>" = .error (.unmatchedCloseTag "div")
      ∧ (∃ d, parse "<div class=\"card\"><p>Hello</p></div>" = .ok d) := by
  have hok := parse_ok_iff s
  refine ⟨hok, ?_, ?_, ?_, ?_, rfl, rfl, rfl, rfl, ⟨_, rfl⟩⟩
  · constructor
    · rintro ⟨e, he⟩ hwf
      obtain ⟨d, hd⟩ := hok.mpr hwf
      rw [he] at hd
      exact absurd hd (by simp)
    · intro hno
      cases hp : parse s with
      | ok d => exact absurd (hok.mp ⟨d, hp⟩) hno
      | error e => exact ⟨e, rfl⟩
  · intro c cs hc
    rw [parse_ok_iff ⟨c :: cs⟩, parse_ok_iff ⟨cs⟩]
    simp only [data_mk]
    rw [tokenize_cons_ne c cs hc]
    exact map_consText_ok_iff c (tokenize cs)
  · intro c cs h
    rw [parse_ok_iff ⟨'<' :: c :: cs⟩, parse_ok_iff ⟨c :: cs⟩]
    simp only [data_mk]
    rw [tokenize_lt_literal (c :: cs) h]
    exact map_consText_ok_iff '<' (tokenize (c :: cs))
  · intro cs h
    obtain ⟨ts, h1, h2⟩ := tokenize_text_only cs h
    exact (parse_ok_iff ⟨cs⟩).mpr ⟨ts, h1, allText_wellNested ts h2⟩

/-- Witness for C5: the characterization and the text-neutrality clauses
applied at concrete inputs, with each hypothesis discharged there. -/
theorem parse_fails_only_on_malformed_tags_witness :
    (¬('a' = '<'))
      ∧ ((∃ d, parse "ab" = .ok d) ↔ (∃ d, parse "b" = .ok d))
      ∧ isTagStart ('1' :: "x".data) = false
      ∧ ((∃ d, parse "<1x" = .ok d) ↔ (∃ d, parse "1x" = .ok d))
      ∧ (∀ c ∈ ("a & b > \"c\"" : String).data, ¬(c = '<'))
      ∧ (∃ d, parse "a & b > \"c\"" = .ok d)
      ∧ parse "</div>" = .error (.unmatchedCloseTag "div") := by
  have T := parse_fails_only_on_malformed_tags "<p>q</p>"
  refine ⟨by decide, ?_, by decide, ?_, by decide, ?_, T.2.2.2.2.2.1⟩
  · exact T.2.2.1 'a' "b".data (by decide)
  · exact T.2.2.2.1 '1' "x".data (by decide)
  · exact T.2.2.2.2.1 ("a & b > \"c\"" : String).data (by decide)

/-- C9: on every source string on which `parse` succeeds, `parse_and_render`
returns exactly `render_html` of the parsed Document — it is the composition
of the parser and the renderer. -/
theorem parse_and_render_is_composition (s : String) (d : Document)
    (h : parse s = .ok d) : parse_and_render s = .ok (render_html d) := by
  unfold parse_and_render
  rw [h]
  rfl

/-- Witness for C9 at the demo template. -/
theorem parse_and_render_is_composition_witness :
    parse "<div class=\"greeting\"><p>Hello world</p></div>"
        = .ok ⟨[.element "div" (some "greeting")
            [.element "p" none [.text "Hello world" none] none] none], none⟩
      ∧ parse_and_render "<div class=\"greeting\"><p>Hello world</p></div>"
        = .ok (render_html ⟨[.element "div" (some "greeting")
            [.element "p" none [.text "Hello world" none] none] none], none⟩) :=
  ⟨rfl, parse_and_render_is_composition _ _ rfl⟩

theorem splitName_eq (nm r : List Char) (h1 : ∀ c ∈ nm, isNameChar c = true)
    (h2 : headNotName r) : splitName (nm ++ r) = (nm, r) := by
  induction nm with
  | nil =>
      simp only [List.nil_append]
      cases r with
      | nil => rfl
      | cons c r =>
          have hc : isNameChar c = false := h2
          simp only [splitName]
          rw [if_neg (by simp [hc])]
  | cons c nm ih =>
      simp only [List.cons_append, splitName]
      rw [if_pos (h1 c (List.mem_cons_self c nm))]
      simp only [List.append_eq]
      rw [ih (fun d hd => h1 d (List.mem_cons_of_mem c hd))]

theorem splitQuoted_eq (v r : List Char) (h : ∀ c ∈ v, ¬(c = '"')) :
    splitQuoted (v ++ '"' :: r) = (v, '"' :: r) := by
  induction v with
  | nil =>
      simp only [List.nil_append, splitQuoted]
      simp
  | cons c v ih =>
      simp only [List.cons_append, splitQuoted]
      rw [if_neg (h c (List.mem_cons_self c v))]
      simp only [List.append_eq]
      rw [ih (fun d hd => h d (List.mem_cons_of_mem c hd))]

theorem goodName_spec (nm : String) (h : goodName nm = true) :
    nm.data ≠ [] ∧ (∀ c ∈ nm.data, isNameChar c = true)
      ∧ ∀ c cs2, nm.data = c :: cs2 → isNameStart c = true ∧ ¬(c = '/') := by
  unfold goodName at h
  cases hd : nm.data with
  | nil => rw [hd] at h; exact absurd h (by simp)
  | cons c cs2 =>
      rw [hd] at h
      simp only [Bool.and_eq_true, List.all_eq_true] at h
      obtain ⟨hstart, hall⟩ := h
      refine ⟨by simp [hd], fun d hdm => hall d ?_, fun c2 cs3 heq => ?_⟩
      · exact hdm
      · injection heq with h1 h2
        subst h1
        refine ⟨hstart, fun hc => ?_⟩
        rw [hc] at hstart
        exact absurd hstart (by decide)

theorem lexClose_print (nm : String) (r : List Char) (h : goodName nm = true) :
    lexClose (nm.data ++ '>' :: r) = .ok (.close nm, r) := by
  obtain ⟨hne, hall, -⟩ := goodName_spec nm h
  have hsn : splitName (nm.data ++ '>' :: r) = (nm.data, '>' :: r) :=
    splitName_eq nm.data ('>' :: r) hall (by show isNameChar '>' = false; decide)
  unfold lexClose
  rw [hsn]
  rw [if_neg hne]
  rfl

theorem lexOpen_print_noclass (nm : String) (r : List Char) (h : goodName nm = true) :
    lexOpen (nm.data ++ '>' :: r) = .ok (.openTag nm none, r) := by
  obtain ⟨hne, hall, -⟩ := goodName_spec nm h
  have hsn : splitName (nm.data ++ '>' :: r) = (nm.data, '>' :: r) :=
    splitName_eq nm.data ('>' :: r) hall (by show isNameChar '>' = false; decide)
  unfold lexOpen
  rw [hsn]
  rw [if_neg hne]
  rfl

theorem lexOpen_print_class (nm v : String) (r : List Char) (h : goodName nm = true)
    (hv : ∀ c ∈ v.data, ¬(c = '"')) :
    lexOpen (nm.data ++ (' ' :: 'c' :: 'l' :: 'a' :: 's' :: 's' :: '=' :: '"'
        :: (v.data ++ '"' :: '>' :: r))) = .ok (.openTag nm (some v), r) := by
  obtain ⟨hne, hall, -⟩ := goodName_spec nm h
  have hsn : splitName (nm.data ++ (' ' :: 'c' :: 'l' :: 'a' :: 's' :: 's' :: '=' :: '"'
      :: (v.data ++ '"' :: '>' :: r)))
      = (nm.data, ' ' :: 'c' :: 'l' :: 'a' :: 's' :: 's' :: '=' :: '"'
          :: (v.data ++ '"' :: '>' :: r)) :=
    splitName_eq nm.data _ hall (by show isNameChar ' ' = false; decide)
  have hsq : splitQuoted (v.data ++ '"' :: '>' :: r) = (v.data, '"' :: '>' :: r) :=
    splitQuoted_eq v.data ('>' :: r) hv
  unfold lexOpen
  rw [hsn]
  rw [if_neg hne]
  show (match (splitQuoted (v.data ++ '"' :: '>' :: r)).2 with
    | '"' :: '>' :: r3 =>
        Except.ok (Token.openTag ⟨nm.data⟩
          (some ⟨(splitQuoted (v.data ++ '"' :: '>' :: r)).1⟩), r3)
    | _ => Except.error ParseError.malformedTag) = Except.ok (Token.openTag nm (some v), r)
  rw [hsq]
  rfl
theorem lexTag_slash (cs : List Char) : lexTag ('/' :: cs) = lexClose cs := by
  show (if '/' = '/' then lexClose cs else lexOpen ('/' :: cs)) = _
  rw [if_pos rfl]

theorem lexTag_not_slash (c : Char) (cs : List Char) (hc : ¬(c = '/')) :
    lexTag (c :: cs) = lexOpen (c :: cs) := by
  show (if c = '/' then lexClose cs else lexOpen (c :: cs)) = _
  rw [if_neg hc]

theorem tokenize_close_print (nm : String) (r : List Char) (h : goodName nm = true) :
    tokenize ('<' :: '/' :: (nm.data ++ '>' :: r))
      = (tokenize r).map (fun ts => .close nm :: ts) := by
  apply tokenize_tag_ok
  · rfl
  · rw [lexTag_slash]
    exact lexClose_print nm r h

theorem tokenize_open_noclass_print (nm : String) (r : List Char) (h : goodName nm = true) :
    tokenize ('<' :: (nm.data ++ '>' :: r))
      = (tokenize r).map (fun ts => .openTag nm none :: ts) := by
  obtain ⟨hne, hall, hhead⟩ := goodName_spec nm h
  cases hdd : nm.data with
  | nil => exact absurd hdd hne
  | cons c cs2 =>
      obtain ⟨hstart, hslash⟩ := hhead c cs2 hdd
      rw [List.cons_append]
      apply tokenize_tag_ok
      · show (decide (c = '/') || isNameStart c) = true
        simp [hstart]
      · rw [lexTag_not_slash c _ hslash]
        rw [← List.cons_append, ← hdd]
        exact lexOpen_print_noclass nm r h

theorem tokenize_open_class_print (nm v : String) (r : List Char) (h : goodName nm = true)
    (hv : ∀ c ∈ v.data, ¬(c = '"')) :
    tokenize ('<' :: (nm.data ++ (' ' :: 'c' :: 'l' :: 'a' :: 's' :: 's' :: '=' :: '"'
        :: (v.data ++ '"' :: '>' :: r))))
      = (tokenize r).map (fun ts => .openTag nm (some v) :: ts) := by
  obtain ⟨hne, hall, hhead⟩ := goodName_spec nm h
  cases hdd : nm.data with
  | nil => exact absurd hdd hne
  | cons c cs2 =>
      obtain ⟨hstart, hslash⟩ := hhead c cs2 hdd
      rw [List.cons_append]
      apply tokenize_tag_ok
      · show (decide (c = '/') || isNameStart c) = true
        simp [hstart]
      · rw [lexTag_not_slash c _ hslash]
        rw [← List.cons_append, ← hdd]
        exact lexOpen_print_class nm v r h hv

theorem consText_headNot (c : Char) (tks : List Token) (h : headNotText tks) :
    consText c tks = .text ⟨[c]⟩ :: tks := by
  cases tks with
  | nil => rfl
  | cons t ts =>
      cases t with
      | text s => exact h.elim
      | openTag nm cls => rfl
      | close nm => rfl

theorem tokenize_textrun (cs : List Char) (rest : List Char) (tks : List Token)
    (hne : cs ≠ []) (hlt : ∀ c ∈ cs, ¬(c = '<'))
    (hrest : tokenize rest = .ok tks) (hhead : headNotText tks) :
    tokenize (cs ++ rest) = .ok (.text ⟨cs⟩ :: tks) := by
  induction cs with
  | nil => exact absurd rfl hne
  | cons c cs ih =>
      cases cs with
      | nil =>
          show tokenize (c :: rest) = _
          rw [tokenize_cons_ne c rest (hlt c (List.mem_cons_self c [])), hrest]
          show Except.ok (consText c tks) = _
          rw [consText_headNot c tks hhead]
      | cons d ds =>
          show tokenize (c :: ((d :: ds) ++ rest)) = _
          rw [tokenize_cons_ne c _ (hlt c (List.mem_cons_self c (d :: ds)))]
          rw [ih (by simp) (fun x hx => hlt x (List.mem_cons_of_mem c hx))]
          rfl

theorem goodT_elem_parts (nm : String) (cls : Option String) (ch : List TNode)
    (h : goodT (.elem nm cls ch) = true) :
    goodName nm = true ∧ goodClass cls = true ∧ goodList ch = true
      ∧ noAdjText ch = true := by
  simpa [goodT, Bool.and_eq_true, and_assoc] using h

theorem goodT_text_parts (s : String) (h : goodT (.text s) = true) :
    s.data ≠ [] ∧ (∀ c ∈ s.data, ¬(c = '<'))
      ∧ (∀ c ∈ s.data, isSpecialChar c = false) := by
  simp only [goodT, Bool.and_eq_true, Bool.not_eq_true', List.all_eq_true] at h
  obtain ⟨hne, hall⟩ := h
  have hdata : s.data ≠ [] := by
    intro hd
    have hempty : s = "" := congrArg String.mk hd
    rw [hempty] at hne
    exact absurd hne (by decide)
  refine ⟨hdata, fun c hc hlt => ?_, hall⟩
  have := hall c hc
  rw [hlt] at this
  exact absurd this (by decide)

theorem goodList_cons (t : TNode) (ts : List TNode) (h : goodList (t :: ts) = true) :
    goodT t = true ∧ goodList ts = true := by
  simpa [goodList, Bool.and_eq_true] using h

theorem noAdjText_tail (t : TNode) (ts : List TNode) (h : noAdjText (t :: ts) = true) :
    noAdjText ts = true := by
  cases ts with
  | nil => rfl
  | cons t2 ts2 =>
      simp only [noAdjText, Bool.and_eq_true] at h
      exact h.2

theorem noAdjText_text (s : String) (t2 : TNode) (ts : List TNode)
    (h : noAdjText (.text s :: t2 :: ts) = true) : isTextT t2 = false := by
  simp only [noAdjText, Bool.and_eq_true, Bool.not_eq_true'] at h
  simpa [isTextT] using h.1

theorem headNotText_toksList (ts : List TNode) (tks : List Token)
    (hhead : headNotText tks)
    (hfirst : ∀ t ts2, ts = t :: ts2 → isTextT t = false) :
    headNotText (toksList ts ++ tks) := by
  cases ts with
  | nil => exact hhead
  | cons t ts2 =>
      have hf := hfirst t ts2 rfl
      cases t with
      | text s => simp [isTextT] at hf
      | elem nm cls ch => trivial
mutual

theorem elemTok (nm : String) (cls : Option String) (ch : List TNode)
    (h : goodT (.elem nm cls ch) = true) (rest : List Char) (tks : List Token)
    (hrest : tokenize rest = .ok tks) :
    tokenize ((printT (.elem nm cls ch)).data ++ rest)
      = .ok (toksT (.elem nm cls ch) ++ tks) := by
  obtain ⟨hnm, hcls, hch, hadj⟩ := goodT_elem_parts nm cls ch h
  have hclose : tokenize ('<' :: '/' :: (nm.data ++ '>' :: rest))
      = .ok (.close nm :: tks) := by
    rw [tokenize_close_print nm rest hnm, hrest]
    rfl
  have hinner : tokenize ((printList ch).data
      ++ ('<' :: '/' :: (nm.data ++ '>' :: rest)))
      = .ok (toksList ch ++ (.close nm :: tks)) :=
    listTok ch hch hadj _ _ hclose trivial
  cases cls with
  | none =>
      have hopen : tokenize ('<' :: (nm.data ++ '>' :: ((printList ch).data
          ++ ('<' :: '/' :: (nm.data ++ '>' :: rest)))))
          = .ok (.openTag nm none :: (toksList ch ++ (.close nm :: tks))) := by
        rw [tokenize_open_noclass_print nm _ hnm, hinner]
        rfl
      have hdata : (printT (.elem nm none ch)).data ++ rest
          = '<' :: (nm.data ++ '>' :: ((printList ch).data
              ++ ('<' :: '/' :: (nm.data ++ '>' :: rest)))) := by
        simp [printT, classString, String.data_append, List.append_assoc,
          show ("<" : String).data = ['<'] from rfl,
          show (">" : String).data = ['>'] from rfl,
          show ("</" : String).data = ['<', '/'] from rfl,
          show ("" : String).data = ([] : List Char) from rfl]
      rw [hdata, hopen]
      simp [toksT, List.append_assoc]
  | some v =>
      have hv : ∀ c ∈ v.data, ¬(c = '"') := by
        simp only [goodClass, List.all_eq_true] at hcls
        intro c hc
        simpa using hcls c hc
      have hopen : tokenize ('<' :: (nm.data ++ (' ' :: 'c' :: 'l' :: 'a' :: 's' :: 's'
          :: '=' :: '"' :: (v.data ++ '"' :: '>' :: ((printList ch).data
          ++ ('<' :: '/' :: (nm.data ++ '>' :: rest)))))))
          = .ok (.openTag nm (some v) :: (toksList ch ++ (.close nm :: tks))) := by
        rw [tokenize_open_class_print nm v _ hnm hv, hinner]
        rfl
      have hdata : (printT (.elem nm (some v) ch)).data ++ rest
          = '<' :: (nm.data ++ (' ' :: 'c' :: 'l' :: 'a' :: 's' :: 's' :: '=' :: '"'
              :: (v.data ++ '"' :: '>' :: ((printList ch).data
              ++ ('<' :: '/' :: (nm.data ++ '>' :: rest)))))) := by
        simp [printT, classString, String.data_append, List.append_assoc,
          show ("<" : String).data = ['<'] from rfl,
          show (">" : String).data = ['>'] from rfl,
          show ("</" : String).data = ['<', '/'] from rfl,
          show (" class=\"" : String).data = [' ', 'c', 'l', 'a', 's', 's', '=', '"'] from rfl,
          show ("\"" : String).data = ['"'] from rfl]
      rw [hdata, hopen]
      simp [toksT, List.append_assoc]

theorem listTok (ts : List TNode) (hg : goodList ts = true) (hadj : noAdjText ts = true)
    (rest : List Char) (tks : List Token) (hrest : tokenize rest = .ok tks)
    (hhead : headNotText tks) :
    tokenize ((printList ts).data ++ rest) = .ok (toksList ts ++ tks) := by
  cases ts with
  | nil => exact hrest
  | cons t ts2 =>
      obtain ⟨hgt, hgts⟩ := goodList_cons t ts2 hg
      have hadj2 := noAdjText_tail t ts2 hadj
      have hdata : (printList (t :: ts2)).data ++ rest
          = (printT t).data ++ ((printList ts2).data ++ rest) := by
        simp [printList, String.data_append, List.append_assoc]
      rw [hdata]
      have hts2 : tokenize ((printList ts2).data ++ rest) = .ok (toksList ts2 ++ tks) :=
        listTok ts2 hgts hadj2 rest tks hrest hhead
      cases t with
      | text s =>
          obtain ⟨hne, hlt, -⟩ := goodT_text_parts s hgt
          have hheadts2 : headNotText (toksList ts2 ++ tks) := by
            apply headNotText_toksList ts2 tks hhead
            intro t2 ts3 heq
            subst heq
            exact noAdjText_text s t2 ts3 hadj
          have hrun := tokenize_textrun s.data _ _ hne hlt hts2 hheadts2
          rw [show (printT (.text s)).data = s.data from rfl, hrun]
          rfl
      | elem nm cls ch =>
          rw [elemTok nm cls ch hgt _ _ hts2]
          simp [toksList, List.append_assoc]

end
theorem escapeChar_not_special (c : Char) (h : isSpecialChar c = false) :
    escapeChar c = c.toString := by
  simp only [isSpecialChar, Bool.or_eq_false_iff, decide_eq_false_iff_not] at h
  obtain ⟨⟨⟨⟨h1, h2⟩, h3⟩, h4⟩, h5⟩ := h
  unfold escapeChar
  rw [if_neg h1, if_neg h2, if_neg h3, if_neg h4, if_neg h5]

theorem escapeList_clean (l : List Char) (h : ∀ c ∈ l, isSpecialChar c = false) :
    escapeList l = l := by
  induction l with
  | nil => rfl
  | cons c l ih =>
      simp only [escapeList]
      rw [escapeChar_not_special c (h c (List.mem_cons_self c l))]
      rw [ih (fun d hd => h d (List.mem_cons_of_mem c hd))]
      rfl

theorem escape_clean (s : String) (h : ∀ c ∈ s.data, isSpecialChar c = false) :
    escape s = s :=
  congrArg String.mk (escapeList_clean s.data h)

mutual

theorem astT_string (t : TNode) (h : goodT t = true) : nodeString (astT t) = printT t := by
  cases t with
  | text s =>
      obtain ⟨-, -, hclean⟩ := goodT_text_parts s h
      show escape s = s
      exact escape_clean s hclean
  | elem nm cls ch =>
      obtain ⟨-, -, hch, -⟩ := goodT_elem_parts nm cls ch h
      show "<" ++ nm ++ classString cls ++ ">" ++ nodesString (astList ch)
          ++ "</" ++ nm ++ ">" = _
      rw [astList_string ch hch]
      rfl

theorem astList_string (ts : List TNode) (h : goodList ts = true) :
    nodesString (astList ts) = printList ts := by
  cases ts with
  | nil => rfl
  | cons t ts2 =>
      obtain ⟨h1, h2⟩ := goodList_cons t ts2 h
      show nodeString (astT t) ++ nodesString (astList ts2) = _
      rw [astT_string t h1, astList_string ts2 h2]
      rfl

end

mutual

theorem buildT (t : TNode) (more : List Token)
    (stack : List (String × Option String × List Node)) (acc : List Node) :
    buildNodes (toksT t ++ more) stack acc = buildNodes more stack (astT t :: acc) := by
  cases t with
  | text s => rfl
  | elem nm cls ch =>
      show buildNodes ((Token.openTag nm cls :: (toksList ch ++ [Token.close nm])) ++ more)
          stack acc = _
      rw [List.cons_append, List.append_assoc]
      show buildNodes (toksList ch ++ ([Token.close nm] ++ more))
          ((nm, cls, acc) :: stack) [] = _
      rw [buildL ch ([Token.close nm] ++ more) ((nm, cls, acc) :: stack) []]
      simp only [List.singleton_append, buildNodes]
      simp [astT]

theorem buildL (ts : List TNode) (more : List Token)
    (stack : List (String × Option String × List Node)) (acc : List Node) :
    buildNodes (toksList ts ++ more) stack acc
      = buildNodes more stack ((astList ts).reverse ++ acc) := by
  cases ts with
  | nil => rfl
  | cons t ts2 =>
      show buildNodes ((toksT t ++ toksList ts2) ++ more) stack acc = _
      rw [List.append_assoc]
      rw [buildT t (toksList ts2 ++ more) stack acc]
      rw [buildL ts2 more stack (astT t :: acc)]
      congr 1
      simp [astList, List.append_assoc]

end

theorem parse_printList (ts : List TNode) (hg : goodList ts = true)
    (hadj : noAdjText ts = true) : parse (printList ts) = .ok ⟨astList ts, none⟩ := by
  have htok : tokenize ((printList ts).data ++ []) = .ok (toksList ts ++ []) :=
    listTok ts hg hadj [] [] rfl trivial
  rw [List.append_nil, List.append_nil] at htok
  unfold parse
  rw [htok]
  show (buildNodes (toksList ts) [] []).map _ = _
  have hb := buildL ts [] [] []
  rw [List.append_nil, List.append_nil] at hb
  rw [hb]
  show Except.ok (Document.mk ((astList ts).reverse.reverse) none) = _
  simp

/-- C7: every template generated by the grammar of nested elements with
optional class attributes and special-character-free, non-adjacent text runs
is reproduced byte-for-byte by `parse_and_render`. -/
theorem structural_passthrough_roundtrip (ts : List TNode) (hg : goodList ts = true)
    (hadj : noAdjText ts = true) :
    parse_and_render (printList ts) = .ok (printList ts) := by
  unfold parse_and_render
  rw [parse_printList ts hg hadj]
  show Except.ok (render_html ⟨astList ts, none⟩) = _
  rw [render_html_eq_nodesString]
  show Except.ok (nodesString (astList ts)) = _
  rw [astList_string ts hg]

/-- Witness for C7 at the demo template
`<div class="user-card"><h2>Welcome</h2><p>Content here</p></div>`. -/
theorem structural_passthrough_roundtrip_witness :
    (goodList [TNode.elem "div" (some "user-card")
        [TNode.elem "h2" none [TNode.text "Welcome"],
         TNode.elem "p" none [TNode.text "Content here"]]] = true
      ∧ noAdjText [TNode.elem "div" (some "user-card")
        [TNode.elem "h2" none [TNode.text "Welcome"],
         TNode.elem "p" none [TNode.text "Content here"]]] = true)
      ∧ parse_and_render "<div class=\"user-card\"><h2>Welcome</h2><p>Content here</p></div>"
        = .ok "<div class=\"user-card\"><h2>Welcome</h2><p>Content here</p></div>" :=
  ⟨⟨by decide, by decide⟩,
   structural_passthrough_roundtrip
     [TNode.elem "div" (some "user-card")
        [TNode.elem "h2" none [TNode.text "Welcome"],
         TNode.elem "p" none [TNode.text "Content here"]]] (by decide) (by decide)⟩
